import Mathlib

/-!
Verification of the Executive Co-Pilot ingestion pipeline (src/app.py).

The pipeline loads a spreadsheet, detects the header row by noise scoring,
maps semantic roles to columns, coerces values, derives computed fields and
filters rows.  We embed the table model and the pipeline's decision logic as
executable Lean definitions and prove the specified properties about them.
-/

namespace ExecCopilot

/-- A cell value as it lives in a pandas column: a raw string, a parsed
number (floats are modelled by rationals), a parsed timestamp with year,
month and day fields, or a missing value (NaN / NaT / None). -/
inductive Cell where
  | str (s : String)
  | num (q : ℚ)
  | date (y : Int) (m : Int) (d : Int)
  | null
deriving DecidableEq, Repr

/-- Remove every thousands separator, embedding
`.str.replace(",", "")` from `to_num` (src/app.py line 156). -/
def stripCommas (s : String) : String :=
  String.mk (s.data.filter (fun c => c ≠ ','))

/-- Numeric value of a digit string via left fold. -/
def digitsToNat (l : List Char) : ℕ :=
  l.foldl (fun a c => 10 * a + (c.toNat - 48)) 0

/-- ASCII lowercasing of a string, embedding Python `str.lower()` on the
identifiers the pipeline compares. -/
def lowerStr (s : String) : String :=
  String.mk (s.data.map Char.toLower)

/-- Strip leading and trailing whitespace from a character list,
embedding Python string trimming. -/
def trimChars (l : List Char) : List Char :=
  ((l.dropWhile Char.isWhitespace).reverse.dropWhile Char.isWhitespace).reverse

/-- Apply an optional leading minus sign to an integer numerator. -/
def applySign (neg : Bool) (v : Int) : Int :=
  if neg then -v else v

/-- Parse a decimal numeral with optional sign and fractional part,
embedding the float parse performed by `pd.to_numeric` on a string cell;
anything else is unparseable and yields `none` (the `errors="coerce"`
path). -/
def parseNum (s : String) : Option ℚ :=
  let t := trimChars s.data
  let neg : Bool := match t with
    | '-' :: _ => true
    | _ => false
  let l : List Char := match t with
    | '-' :: r => r
    | '+' :: r => r
    | _ => t
  let ip := l.takeWhile (fun c => c ≠ '.')
  let rest := l.dropWhile (fun c => c ≠ '.')
  match rest with
  | [] =>
      if ip ≠ [] ∧ ip.all Char.isDigit then
        some (mkRat (applySign neg (digitsToNat ip)) 1)
      else none
  | _ :: fp =>
      if (ip ≠ [] ∨ fp ≠ []) ∧ ip.all Char.isDigit ∧ fp.all Char.isDigit then
        some (mkRat (applySign neg (digitsToNat ip * 10 ^ fp.length + digitsToNat fp))
              (10 ^ fp.length))
      else none

/-- Numeric coercion of one cell, embedding `to_num` (src/app.py lines
155-156): the cell is rendered as a string (`astype(str)` round-trips an
already numeric cell and renders NaN/NaT/timestamps as non-numeric text),
commas are stripped, and the result is parsed with `errors="coerce"`, so
every unparseable cell becomes null. -/
def to_num (c : Cell) : Cell :=
  match c with
  | .str s =>
      match parseNum (stripCommas s) with
      | some q => .num q
      | none => .null
  | .num q => .num q
  | .date _ _ _ => .null
  | .null => .null

/-- Split a character list on a separator character. -/
def splitOnChar (sep : Char) : List Char → List (List Char)
  | [] => [[]]
  | c :: rest =>
      match splitOnChar sep rest with
      | [] => if c = sep then [[], []] else [[c]]
      | h :: t => if c = sep then [] :: h :: t else (c :: h) :: t

/-- Parse an ISO `YYYY-MM-DD` literal, the concrete shape of permissive
date parsing that our inputs exercise; malformed text yields `none`. -/
def parseDate (s : String) : Option (Int × Int × Int) :=
  match splitOnChar '-' (trimChars s.data) with
  | [ys, ms, ds] =>
      if ys ≠ [] ∧ ys.all Char.isDigit ∧
         ms ≠ [] ∧ ms.all Char.isDigit ∧
         ds ≠ [] ∧ ds.all Char.isDigit then
        let m := (digitsToNat ms : Int)
        let d := (digitsToNat ds : Int)
        if 1 ≤ m ∧ m ≤ 12 ∧ 1 ≤ d ∧ d ≤ 31 then
          some ((digitsToNat ys : Int), m, d)
        else none
      else none
  | _ => none

/-- Civil calendar date from a count of days since the Unix epoch
(the standard era-based conversion), used when a numeric cell is
reinterpreted as an epoch timestamp. -/
def civilFromDays (z0 : Int) : Int × Int × Int :=
  let z := z0 + 719468
  let era := (if 0 ≤ z then z else z - 146096) / 146097
  let doe := z - era * 146097
  let yoe := (doe - doe / 1460 + doe / 36524 - doe / 146096) / 365
  let y := yoe + era * 400
  let doy := doe - (365 * yoe + yoe / 4 - yoe / 100)
  let mp := (5 * doy + 2) / 153
  let d := doy - (153 * mp + 2) / 5 + 1
  let m := mp + (if mp < 10 then 3 else -9)
  (y + (if m ≤ 2 then 1 else 0), m, d)

/-- Date coercion of one cell, embedding
`pd.to_datetime(..., errors="coerce")` (src/app.py line 159): timestamps
pass through, missing values stay missing, strings parse permissively or
degrade to null, and numbers are read as epoch nanoseconds. -/
def to_datetime (c : Cell) : Cell :=
  match c with
  | .date y m d => .date y m d
  | .null => .null
  | .str s =>
      match parseDate s with
      | some (y, m, d) => .date y m d
      | none => .null
  | .num q =>
      match civilFromDays ⌊q / 86400000000000⌋ with
      | (y, m, d) => .date y m d

/-- First-of-month truncation of a timestamp, embedding
`work["Date"].dt.to_period("M").dt.to_timestamp()` (src/app.py line 166);
null dates propagate to null months. -/
def monthStart (c : Cell) : Cell :=
  match c with
  | .date y m _ => .date y m 1
  | _ => .null

/-- Replace an exact zero by a missing value, embedding
`.replace(0, np.nan)` (src/app.py line 164). -/
def replaceZero (c : Cell) : Cell :=
  if c = .num 0 then .null else c

/-- Elementwise pandas division on two cells: defined only when both sides
are numeric, missing otherwise. -/
def cellDiv (a b : Cell) : Cell :=
  match a, b with
  | .num x, .num y => .num (x / y)
  | _, _ => .null

/-- Derived revenue per unit for one row, embedding
`work["Revenue"] / work["Units_Sold"].replace(0, np.nan)`
(src/app.py line 164). -/
def rev_per_unit (r u : Cell) : Cell :=
  cellDiv r (replaceZero u)

/-- A column of cells. -/
abbrev Col := List Cell

/-- A data frame as an ordered association of column names to columns. -/
abbrev Table := List (String × Col)

/-- The column names of a table, in order. -/
def colNames (t : Table) : List String :=
  t.map Prod.fst

/-- Column membership, embedding `name in df.columns`. -/
def hasCol (t : Table) (n : String) : Bool :=
  t.any (fun p => p.1 = n)

/-- Column lookup, embedding `df[name]`; an absent column yields the empty
column. -/
def getCol (t : Table) (n : String) : Col :=
  (((t.find? (fun p => p.1 = n)).map Prod.snd)).getD []

/-- Column assignment, embedding `df[name] = v`: an existing column is
replaced in place, a new one is appended on the right. -/
def setCol (t : Table) (n : String) (v : Col) : Table :=
  if hasCol t n then t.map (fun p => if p.1 = n then (n, v) else p)
  else t ++ [(n, v)]

/-- Simultaneous column renaming, embedding `df.rename(columns=dict)`. -/
def renameWith (m : List (String × String)) (t : Table) : Table :=
  t.map (fun p => ((((m.find? (fun q => q.1 = p.1)).map Prod.snd)).getD p.1, p.2))

/-- The role mapping resolved for the seven canonical roles; optional
roles use `none` for the `<none>` sentinel (src/app.py lines 120-126). -/
structure Mapping where
  date_col : Option String
  company_col : String
  region_col : String
  units_col : String
  rev_col : String
  share_col : Option String
  csat_col : Option String
deriving DecidableEq, Repr

/-- The rename step of the normalizer (src/app.py lines 137-148): the four
mandatory roles are renamed simultaneously, then each mapped optional role
is renamed. -/
def renameStage (m : Mapping) (t : Table) : Table :=
  let w := renameWith [(m.company_col, "Company"), (m.region_col, "Region"),
                       (m.units_col, "Units_Sold"), (m.rev_col, "Revenue")] t
  let w := match m.date_col with
    | some c => renameWith [(c, "Date")] w
    | none => w
  let w := match m.share_col with
    | some c => renameWith [(c, "Market_Share_%")] w
    | none => w
  match m.csat_col with
  | some c => renameWith [(c, "Customer_Satisfaction_%")] w
  | none => w

/-- Materialize a canonical column filled with nulls when it is absent,
embedding `if col not in work.columns: work[col] = np.nan`
(src/app.py lines 151-153); `n` is the row count. -/
def ensureCol (t : Table) (n : ℕ) (name : String) : Table :=
  if hasCol t name then t else setCol t name (List.replicate n Cell.null)

/-- Numeric coercion of a whole column with a NaN default for an absent
column, embedding `work[c] = to_num(work.get(c, np.nan))`
(src/app.py lines 160-161). -/
def coerceNumCol (t : Table) (n : ℕ) (name : String) : Table :=
  setCol t name
    (if hasCol t name then (getCol t name).map to_num else List.replicate n Cell.null)

/-- Materialize both optional percentage columns when absent
(src/app.py lines 151-153). -/
def materializeOptional (t : Table) (n : ℕ) : Table :=
  ensureCol (ensureCol t n "Market_Share_%") n "Customer_Satisfaction_%"

/-- Coerce the date column when one exists, embedding
`if "Date" in work.columns: work["Date"] = pd.to_datetime(work["Date"], ...)`
(src/app.py lines 158-159). -/
def coerceDate (t : Table) : Table :=
  if hasCol t "Date" then setCol t "Date" ((getCol t "Date").map to_datetime) else t

/-- Numeric coercion of one present column, embedding
`work[c] = to_num(work[c])` (src/app.py lines 162-163). -/
def mapNumCol (t : Table) (name : String) : Table :=
  setCol t name ((getCol t name).map to_num)

/-- Derive the revenue-per-unit column (src/app.py line 164). -/
def deriveRPU (t : Table) : Table :=
  setCol t "Rev_per_Unit"
    (List.zipWith rev_per_unit (getCol t "Revenue") (getCol t "Units_Sold"))

/-- Derive the month column when a date column exists
(src/app.py lines 165-166). -/
def deriveMonth (t : Table) : Table :=
  if hasCol t "Date" then setCol t "Month" ((getCol t "Date").map monthStart) else t

/-- The Type Coercion and Normalizer stage (src/app.py lines 137-166):
rename mapped columns to canonical names, materialize missing optional
columns as null, coerce the date and numeric columns, derive revenue per
unit, and derive the month when a date column exists. -/
def normalize (m : Mapping) (n : ℕ) (t : Table) : Table :=
  deriveMonth
    (deriveRPU
      (mapNumCol
        (mapNumCol
          (coerceNumCol
            (coerceNumCol
              (coerceDate (materializeOptional (renameStage m t) n))
              n "Units_Sold")
            n "Revenue")
          "Market_Share_%")
        "Customer_Satisfaction_%"))

/-- Noise score of a candidate header's column names, embedding
`sum([c.lower().startswith("unnamed") or c == "" for c in d.columns])`
(src/app.py line 44). -/
def noiseScore (cols : List String) : ℕ :=
  cols.countP (fun c => List.isPrefixOf "unnamed".data (lowerStr c).data || c == "")

/-- The surviving header candidates with their scores (src/app.py lines
39-47): header offsets `0 .. min(8, nrows) - 1` are tried in order; `load`
returns the loaded column names, or `none` when loading raises, in which
case the candidate is skipped. -/
def headerCands (load : ℕ → Option (List String)) (nrows : ℕ) : List (ℕ × ℕ) :=
  (List.range (min 8 nrows)).filterMap
    (fun h => (load h).map (fun cs => (h, noiseScore cs)))

/-- First pair achieving the minimal score, embedding
`opts[scores.index(min(scores))]`. -/
def pickMinFirst : List (ℕ × ℕ) → Option (ℕ × ℕ)
  | [] => none
  | p :: rest =>
      match pickMinFirst rest with
      | none => some p
      | some q => if p.2 ≤ q.2 then some p else some q

/-- The automatically selected header row, embedding
`auto_header = opts[scores.index(min(scores))] if opts else 0`
(src/app.py line 48). -/
def auto_header (load : ℕ → Option (List String)) (nrows : ℕ) : ℕ :=
  (((pickMinFirst (headerCands load nrows)).map Prod.fst)).getD 0

/-- The structural error taxonomy of the pipeline. -/
inductive PipelineError where
  | NoDataFileError
  | EmptySheetError
  | UnrecognizedTableError
  | DuplicateRoleMappingError
deriving DecidableEq, Repr

/-- The minimum-width guard on the cleaned table, embedding
`if len(cols) < 4: st.error(...); st.stop()` (src/app.py lines 83-86). -/
def check_min_cols (cols : List String) : Except PipelineError Unit :=
  if cols.length < 4 then .error .UnrecognizedTableError else .ok ()

/-- The mandatory-role distinctness validation, embedding
`required = [company_col, region_col, units_col, rev_col]` and
`if len(set(required)) != len(required): st.error(...); st.stop()`
(src/app.py lines 129-132). -/
def validate_required (company region units rev : String) : Except PipelineError Unit :=
  let required := [company, region, units, rev]
  if required.dedup.length = required.length then .ok ()
  else .error .DuplicateRoleMappingError

/-- One attempt of the pipeline tail after header cleanup: the width guard
(line 84) runs before the mapping validation (line 130), which runs before
normalization (lines 137-166); each failure halts the attempt. -/
def attempt (cols : List String) (m : Mapping) (n : ℕ) (t : Table) :
    Except PipelineError Table :=
  match check_min_cols cols with
  | .error e => .error e
  | .ok _ =>
      match validate_required m.company_col m.region_col m.units_col m.rev_col with
      | .error e => .error e
      | .ok _ => .ok (normalize m n t)

/-- The column whose lowercased name equals the key, embedding the dict
comprehension `low = {c.lower(): c for c in colnames}` in which a later
column overwrites an earlier one with the same lowercase form
(src/app.py line 92). -/
def lookupLower (colnames : List String) (key : String) : Option String :=
  (colnames.filter (fun c => lowerStr c = key)).getLast?

/-- Alias lookup for one role, embedding `guess` (src/app.py lines 91-95):
the first alias present among the lowercased column names wins. -/
def guess (colnames : List String) : List String → Option String
  | [] => none
  | n :: rest =>
      match lookupLower colnames n with
      | some c => some c
      | none => guess colnames rest

/-- Alias list for the company role (src/app.py line 99). -/
def company_aliases : List String := ["company", "brand", "player"]

/-- Alias list for the region role (src/app.py line 100). -/
def region_aliases : List String := ["region", "zone", "area", "state"]

/-- Alias list for the units role (src/app.py line 101). -/
def units_aliases : List String := ["units_sold", "units", "quantity", "qty"]

/-- Alias list for the revenue role (src/app.py line 102). -/
def revenue_aliases : List String := ["revenue", "sales", "amount", "net sales", "turnover"]

/-- Resolution of one mandatory role (src/app.py lines 121-124): an
explicit user choice wins, else the alias guess, else the positional
fallback. -/
def resolve_col (user : Option String) (g : Option String) (fallback : String) : String :=
  match user with
  | some c => c
  | none => g.getD fallback

/-- Default company column: `g["company"] or cols[0]` (src/app.py line 121). -/
def resolved_company (cols : List String) (user : Option String) : String :=
  resolve_col user (guess cols company_aliases) (cols.getD 0 "")

/-- Default region column: `g["region"] or cols[min(1, len(cols)-1)]`
(src/app.py line 122). -/
def resolved_region (cols : List String) (user : Option String) : String :=
  resolve_col user (guess cols region_aliases) (cols.getD (min 1 (cols.length - 1)) "")

/-- Default units column: `g["units"] or cols[min(2, len(cols)-1)]`
(src/app.py line 123). -/
def resolved_units (cols : List String) (user : Option String) : String :=
  resolve_col user (guess cols units_aliases) (cols.getD (min 2 (cols.length - 1)) "")

/-- Default revenue column: `g["revenue"] or cols[min(3, len(cols)-1)]`
(src/app.py line 124). -/
def resolved_rev (cols : List String) (user : Option String) : String :=
  resolve_col user (guess cols revenue_aliases) (cols.getD (min 3 (cols.length - 1)) "")

/-- A canonical-table row as the filter layer sees it: the company and
region cells plus the remaining cells of the row. -/
structure SRow where
  company : Cell
  region : Cell
  rest : List Cell
deriving DecidableEq, Repr

/-- Row predicate of the filter mask, embedding
`(work["Company"].isin(sel_companies) if sel_companies else True) &
(work["Region"].isin(sel_regions) if sel_regions else True)`
(src/app.py lines 178-179). -/
def row_mask (selC selR : List Cell) (r : SRow) : Bool :=
  (if selC ≠ [] then selC.contains r.company else true) &&
  (if selR ≠ [] then selR.contains r.region else true)

/-- The filtered table, embedding `f = work.loc[mask]` (src/app.py line 180). -/
def filter_rows (selC selR : List Cell) (rows : List SRow) : List SRow :=
  rows.filter (row_mask selC selR)

/-- Modelled from the spec: the date-role fallback scan is not implemented
in src/app.py (the spec folds it in from variant iterations of the script
whose files are not included in src); per the spec's words, the fraction
of a column's values that fail to parse as dates. An empty column has no
parseable value and is disqualified with fraction 1. -/
def miss_frac (col : Col) : ℚ :=
  if col.length = 0 then 1
  else mkRat ((col.map to_datetime).count Cell.null : Int) col.length

/-- First candidate achieving the minimal unparseable fraction. -/
def pickMinFrac : List (String × ℚ) → Option (String × ℚ)
  | [] => none
  | p :: rest =>
      match pickMinFrac rest with
      | none => some p
      | some q => if p.2 ≤ q.2 then some p else some q

/-- Modelled from the spec: the date-role fallback scan over the remaining
columns — parse each candidate column's values as dates, keep the columns
whose unparseable fraction is below 0.2, and favor the one with the lowest
fraction. -/
def date_fallback_scan (cands : List (String × Col)) : Option String :=
  let qual := (cands.map (fun p => (p.1, miss_frac p.2))).filter (fun p => p.2 < mkRat 1 5)
  ((pickMinFrac qual)).map Prod.fst

/-- The identity role mapping used when a table already carries canonical
column names; the three optional roles are mapped to their canonical
columns. -/
def canonMapping : Mapping :=
  ⟨some "Date", "Company", "Region", "Units_Sold", "Revenue",
   some "Market_Share_%", some "Customer_Satisfaction_%"⟩

/-- The identity role mapping with every optional role unmapped. -/
def bareMapping : Mapping :=
  ⟨none, "Company", "Region", "Units_Sold", "Revenue", none, none⟩

/-- The spec's scenario row: Revenue "1,200", Units_Sold "0", Company "A",
Region "X". -/
def zeroUnitsTable : Table :=
  [("Revenue", [Cell.str "1,200"]), ("Units_Sold", [Cell.str "0"]),
   ("Company", [Cell.str "A"]), ("Region", [Cell.str "X"])]

/-- A loader for the spec's header-detection scenario: the three candidate
header rows score 3, 1 and 1. -/
def scenarioLoad : ℕ → Option (List String) :=
  fun h =>
    if h = 0 then some ["", "", "", "Alpha"]
    else if h = 1 then some ["", "Alpha", "Beta", "Gamma"]
    else if h = 2 then some ["", "Delta", "Eps", "Zeta"]
    else none

/-- The spec's fallback-scan scenario column: 17 of 20 values parse as
dates, a miss rate of 0.15. -/
def scanDemoCol : Col :=
  List.replicate 17 (Cell.str "2023-01-15") ++ List.replicate 3 (Cell.str "n/a")

/-! ### Basic table lemmas -/

theorem getCol_nil (n : String) : getCol [] n = [] := rfl

theorem getCol_cons_pos (x : String × Col) (l : Table) (n : String) (h : x.1 = n) :
    getCol (x :: l) n = x.2 := by
  unfold getCol
  rw [List.find?_cons_of_pos]
  · rfl
  · simp [h]

theorem getCol_cons_neg (x : String × Col) (l : Table) (n : String) (h : ¬ x.1 = n) :
    getCol (x :: l) n = getCol l n := by
  unfold getCol
  rw [List.find?_cons_of_neg]
  simp [h]

theorem hasCol_cons (x : String × Col) (l : Table) (n : String) :
    hasCol (x :: l) n = (decide (x.1 = n) || hasCol l n) := by
  simp [hasCol]

theorem getCol_mapSet (t : Table) (n : String) (v : Col) (h : hasCol t n = true) :
    getCol (t.map (fun p => if p.1 = n then (n, v) else p)) n = v := by
  induction t with
  | nil => simp [hasCol] at h
  | cons p rest ih =>
      by_cases hp : p.1 = n
      · simp only [List.map_cons, if_pos hp]
        exact getCol_cons_pos _ _ _ rfl
      · have h' : hasCol rest n = true := by
          simpa [hasCol, hp] using h
        simp only [List.map_cons, if_neg hp]
        rw [getCol_cons_neg _ _ _ hp]
        exact ih h'

theorem getCol_append_absent (t : Table) (n : String) (v : Col) (h : hasCol t n = false) :
    getCol (t ++ [(n, v)]) n = v := by
  induction t with
  | nil => exact getCol_cons_pos _ _ _ rfl
  | cons p rest ih =>
      have hp : ¬ p.1 = n := by
        intro hc
        simp [hasCol, hc] at h
      have h' : hasCol rest n = false := by
        simpa [hasCol, hp] using h
      rw [List.cons_append, getCol_cons_neg _ _ _ hp]
      exact ih h'

theorem getCol_setCol_self (t : Table) (n : String) (v : Col) :
    getCol (setCol t n v) n = v := by
  unfold setCol
  by_cases h : hasCol t n
  · rw [if_pos h]
    exact getCol_mapSet t n v h
  · rw [if_neg h]
    exact getCol_append_absent t n v (by simpa using h)

theorem getCol_setCol_ne (t : Table) (n m : String) (v : Col) (h : m ≠ n) :
    getCol (setCol t n v) m = getCol t m := by
  unfold setCol
  split
  · rename_i hh
    clear hh
    induction t with
    | nil => rfl
    | cons p rest ih =>
        by_cases hp : p.1 = n
        · have hpm : ¬ p.1 = m := fun hc => h (hc.symm.trans hp)
          simp only [List.map_cons, if_pos hp]
          rw [getCol_cons_neg (n, v) _ m (fun hc => h hc.symm),
            getCol_cons_neg _ _ _ hpm]
          exact ih
        · simp only [List.map_cons, if_neg hp]
          by_cases hpm : p.1 = m
          · rw [getCol_cons_pos _ _ _ hpm, getCol_cons_pos _ _ _ hpm]
          · rw [getCol_cons_neg _ _ _ hpm, getCol_cons_neg _ _ _ hpm]
            exact ih
  · rename_i hh
    clear hh
    induction t with
    | nil => exact getCol_cons_neg _ _ _ (fun hc => h hc.symm)
    | cons p rest ih =>
        by_cases hpm : p.1 = m
        · rw [List.cons_append, getCol_cons_pos _ _ _ hpm, getCol_cons_pos _ _ _ hpm]
        · rw [List.cons_append, getCol_cons_neg _ _ _ hpm, getCol_cons_neg _ _ _ hpm]
          exact ih

theorem hasCol_setCol_self (t : Table) (n : String) (v : Col) :
    hasCol (setCol t n v) n = true := by
  unfold setCol
  split
  · rename_i hh
    induction t with
    | nil => simp [hasCol] at hh
    | cons p rest ih =>
        by_cases hp : p.1 = n
        · simp [hasCol, hp]
        · have h' : hasCol rest n = true := by simpa [hasCol, hp] using hh
          simp only [List.map_cons, if_neg hp, hasCol_cons]
          rw [ih h']
          simp
  · simp [hasCol, List.any_append]

theorem hasCol_setCol_ne (t : Table) (n m : String) (v : Col) (h : m ≠ n) :
    hasCol (setCol t n v) m = hasCol t m := by
  unfold setCol
  split
  · rename_i hh
    clear hh
    induction t with
    | nil => rfl
    | cons p rest ih =>
        by_cases hp : p.1 = n
        · have hpm : ¬ p.1 = m := fun hc => h (hc.symm.trans hp)
          have hnm : ¬ n = m := fun hc => h hc.symm
          simp only [List.map_cons, if_pos hp, hasCol_cons]
          rw [ih]
          simp [hpm, hnm]
        · simp only [List.map_cons, if_neg hp, hasCol_cons]
          rw [ih]
  · have hnm : ¬ n = m := fun hc => h hc.symm
    simp [hasCol, List.any_append, hnm]

/-! ### Stage commutation lemmas -/

theorem getCol_ensureCol_ne (t : Table) (n : ℕ) (name m : String) (h : m ≠ name) :
    getCol (ensureCol t n name) m = getCol t m := by
  unfold ensureCol
  split
  · rfl
  · exact getCol_setCol_ne t name m _ h

theorem hasCol_ensureCol_ne (t : Table) (n : ℕ) (name m : String) (h : m ≠ name) :
    hasCol (ensureCol t n name) m = hasCol t m := by
  unfold ensureCol
  split
  · rfl
  · exact hasCol_setCol_ne t name m _ h

theorem hasCol_ensureCol_self (t : Table) (n : ℕ) (name : String) :
    hasCol (ensureCol t n name) name = true := by
  unfold ensureCol
  split
  · assumption
  · exact hasCol_setCol_self t name _

theorem getCol_ensureCol_absent (t : Table) (n : ℕ) (name : String)
    (h : hasCol t name = false) :
    getCol (ensureCol t n name) name = List.replicate n Cell.null := by
  unfold ensureCol
  rw [if_neg (by simp [h])]
  exact getCol_setCol_self t name _

theorem getCol_coerceDate_ne (t : Table) (m : String) (h : m ≠ "Date") :
    getCol (coerceDate t) m = getCol t m := by
  unfold coerceDate
  split
  · exact getCol_setCol_ne t "Date" m _ h
  · rfl

theorem hasCol_coerceDate (t : Table) (m : String) :
    hasCol (coerceDate t) m = hasCol t m := by
  unfold coerceDate
  split
  · rename_i hh
    by_cases hm : m = "Date"
    · subst hm
      rw [hasCol_setCol_self, hh]
    · exact hasCol_setCol_ne t "Date" m _ hm
  · rfl

theorem getCol_coerceDate_self (t : Table) (h : hasCol t "Date" = true) :
    getCol (coerceDate t) "Date" = (getCol t "Date").map to_datetime := by
  unfold coerceDate
  rw [if_pos h]
  exact getCol_setCol_self t "Date" _

theorem getCol_coerceNumCol_ne (t : Table) (n : ℕ) (name m : String) (h : m ≠ name) :
    getCol (coerceNumCol t n name) m = getCol t m := by
  unfold coerceNumCol
  exact getCol_setCol_ne t name m _ h

theorem getCol_coerceNumCol_self (t : Table) (n : ℕ) (name : String) :
    getCol (coerceNumCol t n name) name =
      (if hasCol t name then (getCol t name).map to_num else List.replicate n Cell.null) := by
  unfold coerceNumCol
  exact getCol_setCol_self t name _

theorem hasCol_coerceNumCol_self (t : Table) (n : ℕ) (name : String) :
    hasCol (coerceNumCol t n name) name = true := by
  unfold coerceNumCol
  exact hasCol_setCol_self t name _

theorem hasCol_coerceNumCol_ne (t : Table) (n : ℕ) (name m : String) (h : m ≠ name) :
    hasCol (coerceNumCol t n name) m = hasCol t m := by
  unfold coerceNumCol
  exact hasCol_setCol_ne t name m _ h

theorem getCol_mapNumCol_ne (t : Table) (name m : String) (h : m ≠ name) :
    getCol (mapNumCol t name) m = getCol t m := by
  unfold mapNumCol
  exact getCol_setCol_ne t name m _ h

theorem getCol_mapNumCol_self (t : Table) (name : String) :
    getCol (mapNumCol t name) name = (getCol t name).map to_num := by
  unfold mapNumCol
  exact getCol_setCol_self t name _

theorem hasCol_mapNumCol_ne (t : Table) (name m : String) (h : m ≠ name) :
    hasCol (mapNumCol t name) m = hasCol t m := by
  unfold mapNumCol
  exact hasCol_setCol_ne t name m _ h

theorem getCol_deriveRPU_ne (t : Table) (m : String) (h : m ≠ "Rev_per_Unit") :
    getCol (deriveRPU t) m = getCol t m := by
  unfold deriveRPU
  exact getCol_setCol_ne t "Rev_per_Unit" m _ h

theorem getCol_deriveRPU_self (t : Table) :
    getCol (deriveRPU t) "Rev_per_Unit" =
      List.zipWith rev_per_unit (getCol t "Revenue") (getCol t "Units_Sold") := by
  unfold deriveRPU
  exact getCol_setCol_self t "Rev_per_Unit" _

theorem hasCol_deriveRPU_ne (t : Table) (m : String) (h : m ≠ "Rev_per_Unit") :
    hasCol (deriveRPU t) m = hasCol t m := by
  unfold deriveRPU
  exact hasCol_setCol_ne t "Rev_per_Unit" m _ h

theorem getCol_deriveMonth_ne (t : Table) (m : String) (h : m ≠ "Month") :
    getCol (deriveMonth t) m = getCol t m := by
  unfold deriveMonth
  split
  · exact getCol_setCol_ne t "Month" m _ h
  · rfl

theorem hasCol_deriveMonth_ne (t : Table) (m : String) (h : m ≠ "Month") :
    hasCol (deriveMonth t) m = hasCol t m := by
  unfold deriveMonth
  split
  · exact hasCol_setCol_ne t "Month" m _ h
  · rfl

/-! ### Characterization of the normalized table's columns -/

theorem normalize_RPU (m : Mapping) (n : ℕ) (t : Table) :
    getCol (normalize m n t) "Rev_per_Unit" =
      List.zipWith rev_per_unit (getCol (normalize m n t) "Revenue")
        (getCol (normalize m n t) "Units_Sold") := by
  unfold normalize
  rw [getCol_deriveMonth_ne _ _ (by decide), getCol_deriveRPU_self,
    getCol_deriveMonth_ne _ _ (by decide), getCol_deriveMonth_ne _ _ (by decide),
    getCol_deriveRPU_ne _ _ (by decide), getCol_deriveRPU_ne _ _ (by decide)]

theorem normalize_Revenue (m : Mapping) (n : ℕ) (t : Table) :
    getCol (normalize m n t) "Revenue" =
      (if hasCol (coerceNumCol (coerceDate (materializeOptional (renameStage m t) n))
            n "Units_Sold") "Revenue"
       then (getCol (coerceNumCol (coerceDate (materializeOptional (renameStage m t) n))
            n "Units_Sold") "Revenue").map to_num
       else List.replicate n Cell.null) := by
  unfold normalize
  rw [getCol_deriveMonth_ne _ _ (by decide), getCol_deriveRPU_ne _ _ (by decide),
    getCol_mapNumCol_ne _ _ _ (by decide), getCol_mapNumCol_ne _ _ _ (by decide),
    getCol_coerceNumCol_self]

theorem normalize_Units (m : Mapping) (n : ℕ) (t : Table) :
    getCol (normalize m n t) "Units_Sold" =
      (if hasCol (coerceDate (materializeOptional (renameStage m t) n)) "Units_Sold"
       then (getCol (coerceDate (materializeOptional (renameStage m t) n)) "Units_Sold").map to_num
       else List.replicate n Cell.null) := by
  unfold normalize
  rw [getCol_deriveMonth_ne _ _ (by decide), getCol_deriveRPU_ne _ _ (by decide),
    getCol_mapNumCol_ne _ _ _ (by decide), getCol_mapNumCol_ne _ _ _ (by decide),
    getCol_coerceNumCol_ne _ _ _ _ (by decide), getCol_coerceNumCol_self]

/-! ### Row-count preservation through the normalizer -/

theorem length_getCol_of_hasCol (t : Table) (n : ℕ) (name : String)
    (hw : ∀ p ∈ t, p.2.length = n) (hc : hasCol t name = true) :
    (getCol t name).length = n := by
  have hsome : (t.find? (fun p => decide (p.1 = name))).isSome := by
    rw [List.find?_isSome]
    simpa [hasCol, List.any_eq_true] using hc
  obtain ⟨p, hp⟩ := Option.isSome_iff_exists.mp hsome
  have hmem : p ∈ t := List.mem_of_find?_eq_some hp
  unfold getCol
  rw [hp]
  exact hw p hmem

theorem wf_setCol (t : Table) (name : String) (v : Col) (n : ℕ)
    (hw : ∀ p ∈ t, p.2.length = n) (hv : v.length = n) :
    ∀ p ∈ setCol t name v, p.2.length = n := by
  intro p hp
  unfold setCol at hp
  split at hp
  · obtain ⟨q, hq, rfl⟩ := List.mem_map.mp hp
    by_cases h : q.1 = name
    · simp only [if_pos h]
      exact hv
    · simp only [if_neg h]
      exact hw q hq
  · rcases List.mem_append.mp hp with h | h
    · exact hw p h
    · simp only [List.mem_singleton] at h
      subst h
      exact hv

theorem wf_renameWith (l : List (String × String)) (t : Table) (n : ℕ)
    (hw : ∀ p ∈ t, p.2.length = n) :
    ∀ p ∈ renameWith l t, p.2.length = n := by
  intro p hp
  unfold renameWith at hp
  obtain ⟨q, hq, rfl⟩ := List.mem_map.mp hp
  exact hw q hq

theorem wf_renameStage (m : Mapping) (t : Table) (n : ℕ)
    (hw : ∀ p ∈ t, p.2.length = n) :
    ∀ p ∈ renameStage m t, p.2.length = n := by
  unfold renameStage
  cases m.date_col <;> cases m.share_col <;> cases m.csat_col <;> dsimp only <;>
    repeat (first | exact hw | apply wf_renameWith)

theorem wf_ensureCol (t : Table) (n : ℕ) (name : String)
    (hw : ∀ p ∈ t, p.2.length = n) :
    ∀ p ∈ ensureCol t n name, p.2.length = n := by
  unfold ensureCol
  split
  · exact hw
  · exact wf_setCol t name _ n hw (List.length_replicate n Cell.null)

theorem wf_materializeOptional (t : Table) (n : ℕ)
    (hw : ∀ p ∈ t, p.2.length = n) :
    ∀ p ∈ materializeOptional t n, p.2.length = n := by
  unfold materializeOptional
  exact wf_ensureCol _ n _ (wf_ensureCol t n _ hw)

theorem wf_coerceDate (t : Table) (n : ℕ)
    (hw : ∀ p ∈ t, p.2.length = n) :
    ∀ p ∈ coerceDate t, p.2.length = n := by
  unfold coerceDate
  split
  · rename_i hh
    apply wf_setCol t "Date" _ n hw
    rw [List.length_map]
    exact length_getCol_of_hasCol t n "Date" hw hh
  · exact hw

theorem wf_coerceNumCol (t : Table) (n : ℕ) (name : String)
    (hw : ∀ p ∈ t, p.2.length = n) :
    ∀ p ∈ coerceNumCol t n name, p.2.length = n := by
  unfold coerceNumCol
  apply wf_setCol t name _ n hw
  split
  · rename_i hh
    rw [List.length_map]
    exact length_getCol_of_hasCol t n name hw hh
  · exact List.length_replicate n Cell.null

theorem wf_mapNumCol (t : Table) (n : ℕ) (name : String)
    (hw : ∀ p ∈ t, p.2.length = n) (hc : hasCol t name = true) :
    ∀ p ∈ mapNumCol t name, p.2.length = n := by
  unfold mapNumCol
  apply wf_setCol t name _ n hw
  rw [List.length_map]
  exact length_getCol_of_hasCol t n name hw hc

theorem wf_deriveRPU (t : Table) (n : ℕ)
    (hw : ∀ p ∈ t, p.2.length = n)
    (hR : hasCol t "Revenue" = true) (hU : hasCol t "Units_Sold" = true) :
    ∀ p ∈ deriveRPU t, p.2.length = n := by
  unfold deriveRPU
  apply wf_setCol t "Rev_per_Unit" _ n hw
  rw [List.length_zipWith, length_getCol_of_hasCol t n _ hw hR,
    length_getCol_of_hasCol t n _ hw hU, min_self]

theorem wf_deriveMonth (t : Table) (n : ℕ)
    (hw : ∀ p ∈ t, p.2.length = n) :
    ∀ p ∈ deriveMonth t, p.2.length = n := by
  unfold deriveMonth
  split
  · rename_i hh
    apply wf_setCol t "Month" _ n hw
    rw [List.length_map]
    exact length_getCol_of_hasCol t n "Date" hw hh
  · exact hw

theorem hasCol_materializeOptional_share (t : Table) (n : ℕ) :
    hasCol (materializeOptional t n) "Market_Share_%" = true := by
  unfold materializeOptional
  rw [hasCol_ensureCol_ne _ _ _ _ (by decide)]
  exact hasCol_ensureCol_self t n _

theorem hasCol_materializeOptional_csat (t : Table) (n : ℕ) :
    hasCol (materializeOptional t n) "Customer_Satisfaction_%" = true := by
  unfold materializeOptional
  exact hasCol_ensureCol_self _ n _

theorem normalize_wf (m : Mapping) (n : ℕ) (t : Table)
    (hw : ∀ p ∈ t, p.2.length = n) :
    ∀ p ∈ normalize m n t, p.2.length = n := by
  unfold normalize
  have h1 := wf_renameStage m t n hw
  have h2 := wf_materializeOptional _ n h1
  have h3 := wf_coerceDate _ n h2
  have h4 := wf_coerceNumCol _ n "Units_Sold" h3
  have h5 := wf_coerceNumCol _ n "Revenue" h4
  have hShare : hasCol (coerceNumCol (coerceNumCol
      (coerceDate (materializeOptional (renameStage m t) n)) n "Units_Sold") n "Revenue")
      "Market_Share_%" = true := by
    rw [hasCol_coerceNumCol_ne _ _ _ _ (by decide), hasCol_coerceNumCol_ne _ _ _ _ (by decide),
      hasCol_coerceDate]
    exact hasCol_materializeOptional_share _ n
  have h6 := wf_mapNumCol _ n "Market_Share_%" h5 hShare
  have hCsat : hasCol (mapNumCol (coerceNumCol (coerceNumCol
      (coerceDate (materializeOptional (renameStage m t) n)) n "Units_Sold") n "Revenue")
      "Market_Share_%") "Customer_Satisfaction_%" = true := by
    rw [hasCol_mapNumCol_ne _ _ _ (by decide), hasCol_coerceNumCol_ne _ _ _ _ (by decide),
      hasCol_coerceNumCol_ne _ _ _ _ (by decide), hasCol_coerceDate]
    exact hasCol_materializeOptional_csat _ n
  have h7 := wf_mapNumCol _ n "Customer_Satisfaction_%" h6 hCsat
  have hRev : hasCol (mapNumCol (mapNumCol (coerceNumCol (coerceNumCol
      (coerceDate (materializeOptional (renameStage m t) n)) n "Units_Sold") n "Revenue")
      "Market_Share_%") "Customer_Satisfaction_%") "Revenue" = true := by
    rw [hasCol_mapNumCol_ne _ _ _ (by decide), hasCol_mapNumCol_ne _ _ _ (by decide)]
    exact hasCol_coerceNumCol_self _ n _
  have hUnits : hasCol (mapNumCol (mapNumCol (coerceNumCol (coerceNumCol
      (coerceDate (materializeOptional (renameStage m t) n)) n "Units_Sold") n "Revenue")
      "Market_Share_%") "Customer_Satisfaction_%") "Units_Sold" = true := by
    rw [hasCol_mapNumCol_ne _ _ _ (by decide), hasCol_mapNumCol_ne _ _ _ (by decide),
      hasCol_coerceNumCol_ne _ _ _ _ (by decide)]
    exact hasCol_coerceNumCol_self _ n _
  have h8 := wf_deriveRPU _ n h7 hRev hUnits
  exact wf_deriveMonth _ n h8

theorem hasCol_normalize_Revenue (m : Mapping) (n : ℕ) (t : Table) :
    hasCol (normalize m n t) "Revenue" = true := by
  unfold normalize
  rw [hasCol_deriveMonth_ne _ _ (by decide), hasCol_deriveRPU_ne _ _ (by decide),
    hasCol_mapNumCol_ne _ _ _ (by decide), hasCol_mapNumCol_ne _ _ _ (by decide)]
  exact hasCol_coerceNumCol_self _ n _

theorem hasCol_normalize_Units (m : Mapping) (n : ℕ) (t : Table) :
    hasCol (normalize m n t) "Units_Sold" = true := by
  unfold normalize
  rw [hasCol_deriveMonth_ne _ _ (by decide), hasCol_deriveRPU_ne _ _ (by decide),
    hasCol_mapNumCol_ne _ _ _ (by decide), hasCol_mapNumCol_ne _ _ _ (by decide),
    hasCol_coerceNumCol_ne _ _ _ _ (by decide)]
  exact hasCol_coerceNumCol_self _ n _

/-! ### Claim C2: zero or null units give a null revenue per unit -/

theorem zipWith_getD (f : Cell → Cell → Cell) (a b : List Cell) (i : ℕ)
    (ha : i < a.length) (hb : i < b.length) :
    (List.zipWith f a b).getD i Cell.null = f (a.getD i Cell.null) (b.getD i Cell.null) := by
  induction a generalizing b i with
  | nil => simp at ha
  | cons x xs ih =>
      cases b with
      | nil => simp at hb
      | cons y ys =>
          cases i with
          | zero => rfl
          | succ j =>
              simp only [List.zipWith_cons_cons, List.getD_cons_succ]
              exact ih ys j (by simpa using ha) (by simpa using hb)

theorem rev_per_unit_null (r u : Cell) (h : u = Cell.null ∨ u = Cell.num 0) :
    rev_per_unit r u = Cell.null := by
  rcases h with h | h <;> subst h <;>
    cases r <;> simp [rev_per_unit, replaceZero, cellDiv]

/-- C2: in every normalized table, a row whose Units_Sold is null or zero
has a null Rev_per_Unit; the division is modelled totally and never
produces an error or an infinite value because a zero divisor is replaced
by null before dividing. -/
theorem units_zero_or_null_gives_null_rev_per_unit
    (m : Mapping) (n : ℕ) (t : Table)
    (hw : ∀ p ∈ t, p.2.length = n) (i : ℕ) (hi : i < n)
    (hu : (getCol (normalize m n t) "Units_Sold").getD i Cell.null = Cell.null ∨
          (getCol (normalize m n t) "Units_Sold").getD i Cell.null = Cell.num 0) :
    (getCol (normalize m n t) "Rev_per_Unit").getD i Cell.null = Cell.null := by
  have hwN := normalize_wf m n t hw
  have hR : (getCol (normalize m n t) "Revenue").length = n :=
    length_getCol_of_hasCol _ n _ hwN (hasCol_normalize_Revenue m n t)
  have hU : (getCol (normalize m n t) "Units_Sold").length = n :=
    length_getCol_of_hasCol _ n _ hwN (hasCol_normalize_Units m n t)
  rw [normalize_RPU, zipWith_getD _ _ _ i (by rw [hR]; exact hi) (by rw [hU]; exact hi)]
  exact rev_per_unit_null _ _ hu

/-- C2 witness: the scenario row with Revenue "1,200" and Units_Sold "0"
normalizes to Revenue 1200 and a null Rev_per_Unit, via the main
theorem. -/
theorem units_zero_or_null_gives_null_rev_per_unit_witness :
    (∀ p ∈ zeroUnitsTable, p.2.length = 1) ∧
    (getCol (normalize bareMapping 1 zeroUnitsTable) "Units_Sold").getD 0 Cell.null =
      Cell.num 0 ∧
    (getCol (normalize bareMapping 1 zeroUnitsTable) "Rev_per_Unit").getD 0 Cell.null =
      Cell.null ∧
    (getCol (normalize bareMapping 1 zeroUnitsTable) "Revenue").getD 0 Cell.null =
      Cell.num 1200 :=
  ⟨by decide, by decide,
   units_zero_or_null_gives_null_rev_per_unit bareMapping 1 zeroUnitsTable
     (by decide) 0 (by decide) (Or.inr (by decide)),
   by decide⟩

/-! ### Claim C1: the header detector picks the first minimal-score candidate -/

theorem pickMinFirst_eq_none (l : List (ℕ × ℕ)) :
    pickMinFirst l = none ↔ l = [] := by
  cases l with
  | nil => simp [pickMinFirst]
  | cons a rest =>
      simp only [pickMinFirst]
      cases pickMinFirst rest with
      | none => simp
      | some q =>
          constructor
          · intro hc
            by_cases hle : a.2 ≤ q.2 <;> simp [hle] at hc
          · intro hc
            exact absurd hc (List.cons_ne_nil a rest)

theorem pickMinFirst_spec (l : List (ℕ × ℕ)) (hl : l ≠ []) :
    ∃ p, pickMinFirst l = some p ∧ p ∈ l ∧ ∀ q ∈ l, p.2 ≤ q.2 := by
  induction l with
  | nil => exact absurd rfl hl
  | cons a rest ih =>
      cases hr : pickMinFirst rest with
      | none =>
          have hnil : rest = [] := (pickMinFirst_eq_none rest).mp hr
          subst hnil
          refine ⟨a, rfl, List.mem_singleton_self a, ?_⟩
          intro q hq
          rw [List.mem_singleton.mp hq]
      | some r =>
          have hne : rest ≠ [] := by
            intro hc
            subst hc
            simp [pickMinFirst] at hr
          obtain ⟨r', hr', hmem, hmin⟩ := ih hne
          rw [hr] at hr'
          injection hr' with hr'
          subst hr'
          by_cases hle : a.2 ≤ r.2
          · refine ⟨a, ?_, List.mem_cons_self a rest, ?_⟩
            · simp [pickMinFirst, hr, hle]
            · intro q hq
              rcases List.mem_cons.mp hq with h | h
              · rw [h]
              · exact le_trans hle (hmin q h)
          · refine ⟨r, ?_, List.mem_cons_of_mem a hmem, ?_⟩
            · simp [pickMinFirst, hr, hle]
            · intro q hq
              rcases List.mem_cons.mp hq with h | h
              · rw [h]
                exact le_of_lt (lt_of_not_le hle)
              · exact hmin q h

theorem pickMinFirst_first (l : List (ℕ × ℕ)) (p : ℕ × ℕ)
    (hsorted : l.Pairwise (fun a b => a.1 < b.1)) (hp : pickMinFirst l = some p) :
    ∀ q ∈ l, q.2 = p.2 → p.1 ≤ q.1 := by
  induction l generalizing p with
  | nil => simp [pickMinFirst] at hp
  | cons a rest ih =>
      have hhead : ∀ b ∈ rest, a.1 < b.1 := (List.pairwise_cons.mp hsorted).1
      have htail : rest.Pairwise (fun a b => a.1 < b.1) := (List.pairwise_cons.mp hsorted).2
      cases hr : pickMinFirst rest with
      | none =>
          have hnil : rest = [] := (pickMinFirst_eq_none rest).mp hr
          subst hnil
          simp only [pickMinFirst] at hp
          injection hp with hp
          subst hp
          intro q hq _
          rw [List.mem_singleton.mp hq]
      | some r =>
          simp only [pickMinFirst, hr] at hp
          by_cases hle : a.2 ≤ r.2
          · rw [if_pos hle] at hp
            injection hp with hp
            subst hp
            intro q hq _
            rcases List.mem_cons.mp hq with h | h
            · rw [h]
            · exact le_of_lt (hhead q h)
          · rw [if_neg hle] at hp
            injection hp with hp
            subst hp
            obtain ⟨r', hr', hmemr, hminr⟩ := pickMinFirst_spec rest (by
              intro hc
              subst hc
              simp [pickMinFirst] at hr)
            intro q hq hqe
            rcases List.mem_cons.mp hq with h | h
            · exfalso
              apply hle
              rw [← hqe, h]
            · exact ih r htail hr q h hqe

theorem headerCands_sorted (load : ℕ → Option (List String)) (nrows : ℕ) :
    (headerCands load nrows).Pairwise (fun a b => a.1 < b.1) := by
  unfold headerCands
  refine List.Pairwise.filterMap _ ?_ (List.pairwise_lt_range (min 8 nrows))
  intro a a' hlt b hb b' hb'
  obtain ⟨cs, hcs, rfl⟩ := Option.map_eq_some'.mp hb
  obtain ⟨cs', hcs', rfl⟩ := Option.map_eq_some'.mp hb'
  exact hlt

theorem mem_headerCands_load (load : ℕ → Option (List String)) (nrows : ℕ)
    (p : ℕ × ℕ) (hp : p ∈ headerCands load nrows) :
    ∃ cs, load p.1 = some cs ∧ noiseScore cs = p.2 := by
  unfold headerCands at hp
  obtain ⟨h, _, hf⟩ := List.mem_filterMap.mp hp
  cases hl : load h with
  | none => rw [hl] at hf; simp at hf
  | some cs =>
      rw [hl] at hf
      simp only [Option.map_some'] at hf
      injection hf with hf
      refine ⟨cs, ?_, ?_⟩
      · rw [← hf]
        exact hl
      · rw [← hf]

/-- C1: whenever at least one header candidate loads, the detector picks a
candidate that actually loaded (candidates whose load raised never
compete), its noise score is minimal among all surviving candidates, and
among candidates of equal minimal score the smallest row index wins. -/
theorem auto_header_min_score_first (load : ℕ → Option (List String)) (nrows : ℕ)
    (h : headerCands load nrows ≠ []) :
    ∃ cs, load (auto_header load nrows) = some cs ∧
      (auto_header load nrows, noiseScore cs) ∈ headerCands load nrows ∧
      (∀ q ∈ headerCands load nrows, noiseScore cs ≤ q.2) ∧
      (∀ q ∈ headerCands load nrows, q.2 = noiseScore cs →
        auto_header load nrows ≤ q.1) := by
  obtain ⟨p, hp, hmem, hmin⟩ := pickMinFirst_spec _ h
  have hauto : auto_header load nrows = p.1 := by
    unfold auto_header
    rw [hp]
    rfl
  obtain ⟨cs, hload, hscore⟩ := mem_headerCands_load load nrows p hmem
  refine ⟨cs, ?_, ?_, ?_, ?_⟩
  · rw [hauto]
    exact hload
  · rw [hauto, hscore]
    exact hmem
  · intro q hq
    rw [hscore]
    exact hmin q hq
  · intro q hq hqe
    rw [hauto]
    exact pickMinFirst_first _ p (headerCands_sorted load nrows) hp q hq (by rw [hqe, hscore])

/-- C1 witness: on the spec's scenario of candidate scores 3, 1, 1 the
detector selects header row 1, via the main theorem. -/
theorem auto_header_min_score_first_witness :
    headerCands scenarioLoad 3 ≠ [] ∧
    (∃ cs, scenarioLoad (auto_header scenarioLoad 3) = some cs ∧
      (auto_header scenarioLoad 3, noiseScore cs) ∈ headerCands scenarioLoad 3 ∧
      (∀ q ∈ headerCands scenarioLoad 3, noiseScore cs ≤ q.2) ∧
      (∀ q ∈ headerCands scenarioLoad 3, q.2 = noiseScore cs →
        auto_header scenarioLoad 3 ≤ q.1)) ∧
    auto_header scenarioLoad 3 = 1 :=
  ⟨by decide, auto_header_min_score_first scenarioLoad 3 (by decide), by decide⟩

/-! ### Claim C3: mandatory-role distinctness validation -/

/-- C3: validation succeeds exactly when the four mandatory role columns
are pairwise distinct, and any collision of two mandatory roles, whichever
two they are, yields DuplicateRoleMappingError. -/
theorem validate_required_iff (c r u v : String) :
    (validate_required c r u v = .ok () ↔
      (c ≠ r ∧ c ≠ u ∧ c ≠ v ∧ r ≠ u ∧ r ≠ v ∧ u ≠ v)) ∧
    (¬ (c ≠ r ∧ c ≠ u ∧ c ≠ v ∧ r ≠ u ∧ r ≠ v ∧ u ≠ v) →
      validate_required c r u v = .error .DuplicateRoleMappingError) := by
  have hkey : ([c, r, u, v].dedup.length = [c, r, u, v].length) ↔ [c, r, u, v].Nodup := by
    constructor
    · intro h
      rw [← List.dedup_eq_self]
      exact (List.dedup_sublist [c, r, u, v]).eq_of_length h
    · intro h
      rw [List.dedup_eq_self.mpr h]
  have hnodup : [c, r, u, v].Nodup ↔
      (c ≠ r ∧ c ≠ u ∧ c ≠ v ∧ r ≠ u ∧ r ≠ v ∧ u ≠ v) := by
    simp only [List.nodup_cons, List.mem_cons, List.mem_singleton, not_or,
      List.nodup_nil, and_true, List.not_mem_nil, not_false_iff]
    tauto
  simp only [validate_required]
  by_cases hd : [c, r, u, v].dedup.length = [c, r, u, v].length
  · rw [if_pos hd]
    have hp := hnodup.mp (hkey.mp hd)
    exact ⟨iff_of_true rfl hp, fun hn => absurd hp hn⟩
  · rw [if_neg hd]
    have hp : ¬ (c ≠ r ∧ c ≠ u ∧ c ≠ v ∧ r ≠ u ∧ r ≠ v ∧ u ≠ v) :=
      fun hpp => hd (hkey.mpr (hnodup.mpr hpp))
    exact ⟨iff_of_false (fun h => Except.noConfusion h) hp, fun _ => rfl⟩

/-- C3 witness: a concrete collision fails with the duplicate-mapping
error and a concrete distinct mapping passes, via the main theorem. -/
theorem validate_required_iff_witness :
    validate_required "Alpha" "Beta" "Gamma" "Gamma" =
      .error .DuplicateRoleMappingError ∧
    validate_required "Alpha" "Beta" "Gamma" "Delta" = .ok () :=
  ⟨(validate_required_iff "Alpha" "Beta" "Gamma" "Gamma").2 (by decide),
   (validate_required_iff "Alpha" "Beta" "Gamma" "Delta").1.mpr (by decide)⟩

/-! ### Claim C9: too few usable columns halt the attempt -/

/-- C9: when fewer than 4 usable columns remain after cleanup, the
pipeline attempt halts with the unrecognized-table error before any role
mapping is validated or any normalization is performed, whatever the
mapping and table are. -/
theorem attempt_halts_when_narrow (cols : List String) (m : Mapping) (n : ℕ)
    (t : Table) (h : cols.length < 4) :
    attempt cols m n t = .error .UnrecognizedTableError := by
  have hc : check_min_cols cols = .error .UnrecognizedTableError := by
    unfold check_min_cols
    rw [if_pos h]
  unfold attempt
  rw [hc]

/-- C9 witness: a three-column table halts with the unrecognized-table
error, via the main theorem. -/
theorem attempt_halts_when_narrow_witness :
    attempt ["A", "B", "C"] bareMapping 0 [] = .error .UnrecognizedTableError :=
  attempt_halts_when_narrow ["A", "B", "C"] bareMapping 0 [] (by decide)

/-! ### Claim C10: positional defaults for unmatched mandatory roles -/

/-- C10: when a mandatory role has no alias match and no explicit user
choice, the defaults assign company to column 0 and region, units and
revenue to columns 1, 2 and 3 clamped to the last column; and such
defaults can collide with an alias match, triggering the duplicate-role
validation error (concretely with columns Alpha, Beta, Gamma, qty, where
the units alias "qty" hits column 3 and revenue positionally defaults to
that same column). -/
theorem positional_defaults_clamped (cols : List String)
    (hc : guess cols company_aliases = none) (hr : guess cols region_aliases = none)
    (hu : guess cols units_aliases = none) (hv : guess cols revenue_aliases = none) :
    (resolved_company cols none = cols.getD 0 "" ∧
     resolved_region cols none = cols.getD (min 1 (cols.length - 1)) "" ∧
     resolved_units cols none = cols.getD (min 2 (cols.length - 1)) "" ∧
     resolved_rev cols none = cols.getD (min 3 (cols.length - 1)) "") ∧
    validate_required (resolved_company ["Alpha", "Beta", "Gamma", "qty"] none)
      (resolved_region ["Alpha", "Beta", "Gamma", "qty"] none)
      (resolved_units ["Alpha", "Beta", "Gamma", "qty"] none)
      (resolved_rev ["Alpha", "Beta", "Gamma", "qty"] none) =
      .error .DuplicateRoleMappingError := by
  constructor
  · unfold resolved_company resolved_region resolved_units resolved_rev resolve_col
    rw [hc, hr, hu, hv]
    exact ⟨rfl, rfl, rfl, rfl⟩
  · rfl

/-- C10 witness: on four columns matching no alias, the defaults are the
first four columns positionally, via the main theorem. -/
theorem positional_defaults_clamped_witness :
    (resolved_company ["W", "X", "Y", "Z"] none = "W" ∧
     resolved_region ["W", "X", "Y", "Z"] none = "X" ∧
     resolved_units ["W", "X", "Y", "Z"] none = "Y" ∧
     resolved_rev ["W", "X", "Y", "Z"] none = "Z") ∧
    validate_required (resolved_company ["Alpha", "Beta", "Gamma", "qty"] none)
      (resolved_region ["Alpha", "Beta", "Gamma", "qty"] none)
      (resolved_units ["Alpha", "Beta", "Gamma", "qty"] none)
      (resolved_rev ["Alpha", "Beta", "Gamma", "qty"] none) =
      .error .DuplicateRoleMappingError :=
  positional_defaults_clamped ["W", "X", "Y", "Z"]
    (by decide) (by decide) (by decide) (by decide)

/-! ### Claim C7: inclusive-on-empty filter semantics -/

/-- C7: the filtered table contains exactly the rows whose company is in
the selected companies and whose region is in the selected regions, except
that an empty selection imposes no filter on its dimension; with both
selections empty, every row is returned. -/
theorem filter_rows_spec (selC selR : List Cell) (rows : List SRow) :
    (∀ r, r ∈ filter_rows selC selR rows ↔
      r ∈ rows ∧ (selC = [] ∨ r.company ∈ selC) ∧ (selR = [] ∨ r.region ∈ selR)) ∧
    filter_rows [] [] rows = rows := by
  constructor
  · intro r
    by_cases hC : selC = [] <;> by_cases hR : selR = [] <;>
      simp [filter_rows, row_mask, hC, hR, List.mem_filter]
  · simp [filter_rows, row_mask]

/-- C7 witness: filtering one matching row with an empty region selection
keeps the row, and the doubly-empty selection keeps everything, via the
main theorem. -/
theorem filter_rows_spec_witness :
    (⟨Cell.str "A", Cell.str "X", []⟩ : SRow) ∈
      filter_rows [Cell.str "A"] [] [⟨Cell.str "A", Cell.str "X", []⟩] ∧
    filter_rows [] [] [(⟨Cell.str "A", Cell.str "X", []⟩ : SRow)] =
      [⟨Cell.str "A", Cell.str "X", []⟩] :=
  ⟨((filter_rows_spec [Cell.str "A"] [] [⟨Cell.str "A", Cell.str "X", []⟩]).1
      ⟨Cell.str "A", Cell.str "X", []⟩).mpr
    ⟨List.mem_singleton_self _, Or.inr (by decide), Or.inl rfl⟩,
   (filter_rows_spec [] [] [⟨Cell.str "A", Cell.str "X", []⟩]).2⟩

/-! ### Claim C4: the coercion stage is total and preserves the row count -/

/-- C4: normalization preserves the length of every column (the row
count), numeric coercion of a string cell strips commas and parses, and
every unparseable cell becomes null; the stage is a total function, so no
exception escapes it. -/
theorem normalizer_total_row_count (m : Mapping) (n : ℕ) (t : Table)
    (hw : ∀ p ∈ t, p.2.length = n) :
    (∀ p ∈ normalize m n t, p.2.length = n) ∧
    (∀ s : String, parseNum (stripCommas s) = none → to_num (.str s) = Cell.null) ∧
    (∀ (s : String) (q : ℚ), parseNum (stripCommas s) = some q →
      to_num (.str s) = Cell.num q) :=
  ⟨normalize_wf m n t hw,
   fun s h => by simp [to_num, h],
   fun s q h => by simp [to_num, h]⟩

/-- C4 witness: the scenario table normalizes with every column of length
one, "abc" coerces to null, and "1,200" coerces to 1200, via the main
theorem. -/
theorem normalizer_total_row_count_witness :
    (∀ p ∈ zeroUnitsTable, p.2.length = 1) ∧
    (∀ p ∈ normalize bareMapping 1 zeroUnitsTable, p.2.length = 1) ∧
    to_num (.str "abc") = Cell.null ∧
    to_num (.str "1,200") = Cell.num 1200 :=
  ⟨by decide,
   (normalizer_total_row_count bareMapping 1 zeroUnitsTable (by decide)).1,
   (normalizer_total_row_count bareMapping 1 zeroUnitsTable (by decide)).2.1 "abc" (by decide),
   (normalizer_total_row_count bareMapping 1 zeroUnitsTable (by decide)).2.2 "1,200" 1200
     (by decide)⟩

/-! ### Claim C6: materialization of optional canonical columns -/

theorem hasCol_renameWith_false (l : List (String × String)) (w : Table) (name : String)
    (hw : hasCol w name = false) (hl : ∀ pr ∈ l, pr.2 ≠ name) :
    hasCol (renameWith l w) name = false := by
  unfold renameWith
  rw [Bool.eq_false_iff]
  intro hc
  obtain ⟨p, hp, hpn⟩ := List.any_eq_true.mp hc
  obtain ⟨q, hq, rfl⟩ := List.mem_map.mp hp
  simp only [decide_eq_true_eq] at hpn
  cases hfind : l.find? (fun pr => pr.1 = q.1) with
  | none =>
      rw [hfind] at hpn
      simp only [Option.map_none', Option.getD_none] at hpn
      have : hasCol w name = true :=
        List.any_eq_true.mpr ⟨q, hq, by simp [hpn]⟩
      rw [this] at hw
      exact Bool.noConfusion hw
  | some pr =>
      rw [hfind] at hpn
      simp only [Option.map_some', Option.getD_some] at hpn
      exact hl pr (List.mem_of_find?_eq_some hfind) hpn

theorem hasCol_renameWith_single_false (c target : String) (w : Table) (name : String)
    (hwf : hasCol w name = false) (hne : target ≠ name) :
    hasCol (renameWith [(c, target)] w) name = false :=
  hasCol_renameWith_false _ _ _ hwf
    (fun pr hpr => by rw [List.mem_singleton.mp hpr]; exact hne)

theorem hasCol_renameWith_mandatory_false (m : Mapping) (w : Table) (name : String)
    (hwf : hasCol w name = false)
    (h1 : name ≠ "Company") (h2 : name ≠ "Region") (h3 : name ≠ "Units_Sold")
    (h4 : name ≠ "Revenue") :
    hasCol (renameWith [(m.company_col, "Company"), (m.region_col, "Region"),
      (m.units_col, "Units_Sold"), (m.rev_col, "Revenue")] w) name = false := by
  apply hasCol_renameWith_false _ _ _ hwf
  intro pr hpr
  simp only [List.mem_cons, List.not_mem_nil, or_false] at hpr
  rcases hpr with rfl | rfl | rfl | rfl
  · exact Ne.symm h1
  · exact Ne.symm h2
  · exact Ne.symm h3
  · exact Ne.symm h4

theorem hasCol_renameStage_false (m : Mapping) (t : Table) (name : String)
    (hw : hasCol t name = false)
    (h1 : name ≠ "Company") (h2 : name ≠ "Region") (h3 : name ≠ "Units_Sold")
    (h4 : name ≠ "Revenue")
    (hdo : m.date_col = none ∨ name ≠ "Date")
    (hso : m.share_col = none ∨ name ≠ "Market_Share_%")
    (hco : m.csat_col = none ∨ name ≠ "Customer_Satisfaction_%") :
    hasCol (renameStage m t) name = false := by
  have hbase := hasCol_renameWith_mandatory_false m t name hw h1 h2 h3 h4
  unfold renameStage
  cases hdc : m.date_col <;> cases hsc : m.share_col <;> cases hcc : m.csat_col <;>
    rw [hdc] at hdo <;> rw [hsc] at hso <;> rw [hcc] at hco <;> dsimp only
  · exact hbase
  · exact hasCol_renameWith_single_false _ _ _ _ hbase
      (Ne.symm (hco.resolve_left (fun h => Option.noConfusion h)))
  · exact hasCol_renameWith_single_false _ _ _ _ hbase
      (Ne.symm (hso.resolve_left (fun h => Option.noConfusion h)))
  · exact hasCol_renameWith_single_false _ _ _ _
      (hasCol_renameWith_single_false _ _ _ _ hbase
        (Ne.symm (hso.resolve_left (fun h => Option.noConfusion h))))
      (Ne.symm (hco.resolve_left (fun h => Option.noConfusion h)))
  · exact hasCol_renameWith_single_false _ _ _ _ hbase
      (Ne.symm (hdo.resolve_left (fun h => Option.noConfusion h)))
  · exact hasCol_renameWith_single_false _ _ _ _
      (hasCol_renameWith_single_false _ _ _ _ hbase
        (Ne.symm (hdo.resolve_left (fun h => Option.noConfusion h))))
      (Ne.symm (hco.resolve_left (fun h => Option.noConfusion h)))
  · exact hasCol_renameWith_single_false _ _ _ _
      (hasCol_renameWith_single_false _ _ _ _ hbase
        (Ne.symm (hdo.resolve_left (fun h => Option.noConfusion h))))
      (Ne.symm (hso.resolve_left (fun h => Option.noConfusion h)))
  · exact hasCol_renameWith_single_false _ _ _ _
      (hasCol_renameWith_single_false _ _ _ _
        (hasCol_renameWith_single_false _ _ _ _ hbase
          (Ne.symm (hdo.resolve_left (fun h => Option.noConfusion h))))
        (Ne.symm (hso.resolve_left (fun h => Option.noConfusion h))))
      (Ne.symm (hco.resolve_left (fun h => Option.noConfusion h)))

theorem hasCol_mapNumCol_self (t : Table) (name : String) :
    hasCol (mapNumCol t name) name = true := by
  unfold mapNumCol
  exact hasCol_setCol_self t name _

theorem hasCol_deriveRPU_self (t : Table) :
    hasCol (deriveRPU t) "Rev_per_Unit" = true := by
  unfold deriveRPU
  exact hasCol_setCol_self t _ _

theorem deriveMonth_of_absent (t : Table) (h : hasCol t "Date" = false) :
    deriveMonth t = t := by
  unfold deriveMonth
  rw [if_neg (by simp [h])]

theorem map_getD_null (f : Cell → Cell) (l : List Cell) (i : ℕ)
    (hf : f Cell.null = Cell.null) :
    (l.map f).getD i Cell.null = f (l.getD i Cell.null) := by
  induction l generalizing i with
  | nil => simp [hf]
  | cons x xs ih =>
      cases i with
      | zero => rfl
      | succ j =>
          simp only [List.map_cons, List.getD_cons_succ]
          exact ih j

/-- C6 counterexample: with the date role unmapped and no date column in
the input, the normalized table contains neither a Date nor a Month
column, refuting the claim that the canonical table always contains all
fixed columns including Date and Month. -/
theorem canonical_columns_cex :
    hasCol (normalize bareMapping 1 zeroUnitsTable) "Date" = false ∧
    hasCol (normalize bareMapping 1 zeroUnitsTable) "Month" = false := by
  decide

/-- C6 amended: unmapped optional share and satisfaction roles are
materialized as all-null canonical columns and are always present, as is
Rev_per_Unit; but Date and Month are absent whenever the date role is
unmapped and the input has no Date (or Month) column, and when a Date
column does survive the rename, Month is its first-of-month image, hence
null wherever Date is null. -/
theorem optional_columns_amended (m : Mapping) (n : ℕ) (t : Table) :
    (m.share_col = none → hasCol t "Market_Share_%" = false →
      getCol (normalize m n t) "Market_Share_%" = List.replicate n Cell.null) ∧
    (m.csat_col = none → hasCol t "Customer_Satisfaction_%" = false →
      getCol (normalize m n t) "Customer_Satisfaction_%" = List.replicate n Cell.null) ∧
    hasCol (normalize m n t) "Market_Share_%" = true ∧
    hasCol (normalize m n t) "Customer_Satisfaction_%" = true ∧
    hasCol (normalize m n t) "Rev_per_Unit" = true ∧
    (m.date_col = none → hasCol t "Date" = false → hasCol t "Month" = false →
      hasCol (normalize m n t) "Date" = false ∧
      hasCol (normalize m n t) "Month" = false) ∧
    (hasCol (renameStage m t) "Date" = true →
      getCol (normalize m n t) "Month" =
        (getCol (normalize m n t) "Date").map monthStart ∧
      ∀ i, (getCol (normalize m n t) "Date").getD i Cell.null = Cell.null →
        (getCol (normalize m n t) "Month").getD i Cell.null = Cell.null) := by
  refine ⟨?_, ?_, ?_, ?_, ?_, ?_, ?_⟩
  · intro hs hcol
    have hw1 : hasCol (renameStage m t) "Market_Share_%" = false :=
      hasCol_renameStage_false m t _ hcol (by decide) (by decide) (by decide) (by decide)
        (Or.inr (by decide)) (Or.inl hs) (Or.inr (by decide))
    unfold normalize materializeOptional
    rw [getCol_deriveMonth_ne _ _ (by decide), getCol_deriveRPU_ne _ _ (by decide),
      getCol_mapNumCol_ne _ _ _ (by decide), getCol_mapNumCol_self,
      getCol_coerceNumCol_ne _ _ _ _ (by decide), getCol_coerceNumCol_ne _ _ _ _ (by decide),
      getCol_coerceDate_ne _ _ (by decide), getCol_ensureCol_ne _ _ _ _ (by decide),
      getCol_ensureCol_absent _ _ _ hw1, List.map_replicate]
    rfl
  · intro hcsat hcol
    have hw1 : hasCol (renameStage m t) "Customer_Satisfaction_%" = false :=
      hasCol_renameStage_false m t _ hcol (by decide) (by decide) (by decide) (by decide)
        (Or.inr (by decide)) (Or.inr (by decide)) (Or.inl hcsat)
    have hw2 : hasCol (ensureCol (renameStage m t) n "Market_Share_%")
        "Customer_Satisfaction_%" = false := by
      rw [hasCol_ensureCol_ne _ _ _ _ (by decide)]
      exact hw1
    unfold normalize materializeOptional
    rw [getCol_deriveMonth_ne _ _ (by decide), getCol_deriveRPU_ne _ _ (by decide),
      getCol_mapNumCol_self, getCol_mapNumCol_ne _ _ _ (by decide),
      getCol_coerceNumCol_ne _ _ _ _ (by decide), getCol_coerceNumCol_ne _ _ _ _ (by decide),
      getCol_coerceDate_ne _ _ (by decide), getCol_ensureCol_absent _ _ _ hw2,
      List.map_replicate]
    rfl
  · unfold normalize
    rw [hasCol_deriveMonth_ne _ _ (by decide), hasCol_deriveRPU_ne _ _ (by decide),
      hasCol_mapNumCol_ne _ _ _ (by decide)]
    exact hasCol_mapNumCol_self _ _
  · unfold normalize
    rw [hasCol_deriveMonth_ne _ _ (by decide), hasCol_deriveRPU_ne _ _ (by decide)]
    exact hasCol_mapNumCol_self _ _
  · unfold normalize
    rw [hasCol_deriveMonth_ne _ _ (by decide)]
    exact hasCol_deriveRPU_self _
  · intro hd hD hM
    have hw1D : hasCol (renameStage m t) "Date" = false :=
      hasCol_renameStage_false m t _ hD (by decide) (by decide) (by decide) (by decide)
        (Or.inl hd) (Or.inr (by decide)) (Or.inr (by decide))
    have hw1M : hasCol (renameStage m t) "Month" = false :=
      hasCol_renameStage_false m t _ hM (by decide) (by decide) (by decide) (by decide)
        (Or.inr (by decide)) (Or.inr (by decide)) (Or.inr (by decide))
    have hw8D : hasCol (deriveRPU (mapNumCol (mapNumCol (coerceNumCol (coerceNumCol
        (coerceDate (materializeOptional (renameStage m t) n)) n "Units_Sold") n "Revenue")
        "Market_Share_%") "Customer_Satisfaction_%")) "Date" = false := by
      rw [hasCol_deriveRPU_ne _ _ (by decide), hasCol_mapNumCol_ne _ _ _ (by decide),
        hasCol_mapNumCol_ne _ _ _ (by decide), hasCol_coerceNumCol_ne _ _ _ _ (by decide),
        hasCol_coerceNumCol_ne _ _ _ _ (by decide), hasCol_coerceDate]
      unfold materializeOptional
      rw [hasCol_ensureCol_ne _ _ _ _ (by decide), hasCol_ensureCol_ne _ _ _ _ (by decide)]
      exact hw1D
    have hw8M : hasCol (deriveRPU (mapNumCol (mapNumCol (coerceNumCol (coerceNumCol
        (coerceDate (materializeOptional (renameStage m t) n)) n "Units_Sold") n "Revenue")
        "Market_Share_%") "Customer_Satisfaction_%")) "Month" = false := by
      rw [hasCol_deriveRPU_ne _ _ (by decide), hasCol_mapNumCol_ne _ _ _ (by decide),
        hasCol_mapNumCol_ne _ _ _ (by decide), hasCol_coerceNumCol_ne _ _ _ _ (by decide),
        hasCol_coerceNumCol_ne _ _ _ _ (by decide), hasCol_coerceDate]
      unfold materializeOptional
      rw [hasCol_ensureCol_ne _ _ _ _ (by decide), hasCol_ensureCol_ne _ _ _ _ (by decide)]
      exact hw1M
    unfold normalize
    rw [deriveMonth_of_absent _ hw8D]
    exact ⟨hw8D, hw8M⟩
  · intro hD1
    have hw8D : hasCol (deriveRPU (mapNumCol (mapNumCol (coerceNumCol (coerceNumCol
        (coerceDate (materializeOptional (renameStage m t) n)) n "Units_Sold") n "Revenue")
        "Market_Share_%") "Customer_Satisfaction_%")) "Date" = true := by
      rw [hasCol_deriveRPU_ne _ _ (by decide), hasCol_mapNumCol_ne _ _ _ (by decide),
        hasCol_mapNumCol_ne _ _ _ (by decide), hasCol_coerceNumCol_ne _ _ _ _ (by decide),
        hasCol_coerceNumCol_ne _ _ _ _ (by decide), hasCol_coerceDate]
      unfold materializeOptional
      rw [hasCol_ensureCol_ne _ _ _ _ (by decide), hasCol_ensureCol_ne _ _ _ _ (by decide)]
      exact hD1
    have hmonth : getCol (normalize m n t) "Month" =
        (getCol (normalize m n t) "Date").map monthStart := by
      unfold normalize deriveMonth
      rw [if_pos hw8D, getCol_setCol_self, getCol_setCol_ne _ _ _ _ (by decide)]
    refine ⟨hmonth, ?_⟩
    intro i hnull
    rw [hmonth, map_getD_null monthStart _ i rfl, hnull]
    rfl

/-- C6 amended witness: on the scenario table with all optional roles
unmapped, the share column is materialized as one null and Date and Month
are absent, via the amended theorem. -/
theorem optional_columns_amended_witness :
    getCol (normalize bareMapping 1 zeroUnitsTable) "Market_Share_%" =
      List.replicate 1 Cell.null ∧
    (hasCol (normalize bareMapping 1 zeroUnitsTable) "Date" = false ∧
     hasCol (normalize bareMapping 1 zeroUnitsTable) "Month" = false) :=
  ⟨(optional_columns_amended bareMapping 1 zeroUnitsTable).1 rfl (by decide),
   (optional_columns_amended bareMapping 1 zeroUnitsTable).2.2.2.2.2.1 rfl
     (by decide) (by decide)⟩

/-! ### Claim C8: the normalizer is idempotent on its own output -/

theorem to_num_idem (c : Cell) : to_num (to_num c) = to_num c := by
  cases c with
  | str s => cases h : parseNum (stripCommas s) <;> simp [to_num, h]
  | num q => rfl
  | date y m d => rfl
  | null => rfl

theorem to_datetime_idem (c : Cell) : to_datetime (to_datetime c) = to_datetime c := by
  cases c with
  | str s =>
      cases h : parseDate s with
      | none => simp [to_datetime, h]
      | some p =>
          obtain ⟨y, m, d⟩ := p
          simp [to_datetime, h]
  | num q =>
      rcases hc : civilFromDays ⌊q / 86400000000000⌋ with ⟨y, m, d⟩
      simp [to_datetime, hc]
  | date y m d => rfl
  | null => rfl

theorem map_to_num_idem (l : Col) : (l.map to_num).map to_num = l.map to_num := by
  induction l with
  | nil => rfl
  | cons x xs ih =>
      simp only [List.map_cons, to_num_idem]
      rw [ih]

theorem map_to_datetime_idem (l : Col) :
    (l.map to_datetime).map to_datetime = l.map to_datetime := by
  induction l with
  | nil => rfl
  | cons x xs ih =>
      simp only [List.map_cons, to_datetime_idem]
      rw [ih]

theorem renameWith_id (l : List (String × String)) (hid : ∀ pr ∈ l, pr.2 = pr.1)
    (u : Table) : renameWith l u = u := by
  unfold renameWith
  induction u with
  | nil => rfl
  | cons p rest ih =>
      simp only [List.map_cons] at *
      rw [ih]
      cases hfind : l.find? (fun q => q.1 = p.1) with
      | none => simp [hfind]
      | some pr =>
          have h1 : pr.2 = pr.1 := hid pr (List.mem_of_find?_eq_some hfind)
          have h2 : pr.1 = p.1 := by simpa using List.find?_some hfind
          simp [hfind, h1, h2]

theorem renameStage_canon (u : Table) : renameStage canonMapping u = u := by
  unfold renameStage canonMapping
  dsimp only
  rw [renameWith_id _ (by decide), renameWith_id _ (by decide),
    renameWith_id _ (by decide), renameWith_id _ (by decide)]

theorem ensureCol_of_present (t : Table) (n : ℕ) (name : String)
    (h : hasCol t name = true) : ensureCol t n name = t := by
  unfold ensureCol
  rw [if_pos h]

theorem coerceDate_of_absent (t : Table) (h : hasCol t "Date" = false) :
    coerceDate t = t := by
  unfold coerceDate
  rw [if_neg (by simp [h])]

theorem hasCol_normalize_share (m : Mapping) (n : ℕ) (t : Table) :
    hasCol (normalize m n t) "Market_Share_%" = true := by
  unfold normalize
  rw [hasCol_deriveMonth_ne _ _ (by decide), hasCol_deriveRPU_ne _ _ (by decide),
    hasCol_mapNumCol_ne _ _ _ (by decide)]
  exact hasCol_mapNumCol_self _ _

theorem hasCol_normalize_csat (m : Mapping) (n : ℕ) (t : Table) :
    hasCol (normalize m n t) "Customer_Satisfaction_%" = true := by
  unfold normalize
  rw [hasCol_deriveMonth_ne _ _ (by decide), hasCol_deriveRPU_ne _ _ (by decide)]
  exact hasCol_mapNumCol_self _ _

theorem hasCol_normalize_Date (m : Mapping) (n : ℕ) (t : Table) :
    hasCol (normalize m n t) "Date" =
      hasCol (materializeOptional (renameStage m t) n) "Date" := by
  unfold normalize
  rw [hasCol_deriveMonth_ne _ _ (by decide), hasCol_deriveRPU_ne _ _ (by decide),
    hasCol_mapNumCol_ne _ _ _ (by decide), hasCol_mapNumCol_ne _ _ _ (by decide),
    hasCol_coerceNumCol_ne _ _ _ _ (by decide), hasCol_coerceNumCol_ne _ _ _ _ (by decide),
    hasCol_coerceDate]

theorem normalize_Date (m : Mapping) (n : ℕ) (t : Table) :
    getCol (normalize m n t) "Date" =
      (if hasCol (materializeOptional (renameStage m t) n) "Date"
       then (getCol (materializeOptional (renameStage m t) n) "Date").map to_datetime
       else getCol (materializeOptional (renameStage m t) n) "Date") := by
  unfold normalize
  rw [getCol_deriveMonth_ne _ _ (by decide), getCol_deriveRPU_ne _ _ (by decide),
    getCol_mapNumCol_ne _ _ _ (by decide), getCol_mapNumCol_ne _ _ _ (by decide),
    getCol_coerceNumCol_ne _ _ _ _ (by decide), getCol_coerceNumCol_ne _ _ _ _ (by decide)]
  cases hD : hasCol (materializeOptional (renameStage m t) n) "Date" with
  | false =>
      rw [if_neg (by simp), coerceDate_of_absent _ hD]
  | true =>
      rw [if_pos rfl]
      exact getCol_coerceDate_self _ hD

/-- C8: running the normalizer a second time on its own output, with the
canonical column names as the role mapping, leaves the Revenue, Units_Sold
and Date columns unchanged; moreover the rename step of the canonical
mapping is the identity on every table. -/
theorem normalize_idempotent (m : Mapping) (n : ℕ) (t : Table) :
    getCol (normalize canonMapping n (normalize m n t)) "Revenue" =
      getCol (normalize m n t) "Revenue" ∧
    getCol (normalize canonMapping n (normalize m n t)) "Units_Sold" =
      getCol (normalize m n t) "Units_Sold" ∧
    getCol (normalize canonMapping n (normalize m n t)) "Date" =
      getCol (normalize m n t) "Date" ∧
    (∀ u : Table, renameStage canonMapping u = u) := by
  have hmat : materializeOptional (normalize m n t) n = normalize m n t := by
    unfold materializeOptional
    rw [ensureCol_of_present _ _ _ (hasCol_normalize_share m n t)]
    exact ensureCol_of_present _ _ _ (hasCol_normalize_csat m n t)
  refine ⟨?_, ?_, ?_, renameStage_canon⟩
  · rw [normalize_Revenue canonMapping n (normalize m n t), renameStage_canon, hmat]
    have hcond : hasCol (coerceNumCol (coerceDate (normalize m n t)) n "Units_Sold")
        "Revenue" = true := by
      rw [hasCol_coerceNumCol_ne _ _ _ _ (by decide), hasCol_coerceDate]
      exact hasCol_normalize_Revenue m n t
    rw [if_pos hcond, getCol_coerceNumCol_ne _ _ _ _ (by decide),
      getCol_coerceDate_ne _ _ (by decide)]
    rw [normalize_Revenue m n t]
    cases hR : hasCol (coerceNumCol (coerceDate (materializeOptional (renameStage m t) n))
        n "Units_Sold") "Revenue" with
    | false =>
        rw [if_neg (by simp), List.map_replicate]
        rfl
    | true =>
        rw [if_pos rfl, map_to_num_idem]
  · rw [normalize_Units canonMapping n (normalize m n t), renameStage_canon, hmat]
    have hcond : hasCol (coerceDate (normalize m n t)) "Units_Sold" = true := by
      rw [hasCol_coerceDate]
      exact hasCol_normalize_Units m n t
    rw [if_pos hcond, getCol_coerceDate_ne _ _ (by decide)]
    rw [normalize_Units m n t]
    cases hU : hasCol (coerceDate (materializeOptional (renameStage m t) n))
        "Units_Sold" with
    | false =>
        rw [if_neg (by simp), List.map_replicate]
        rfl
    | true =>
        rw [if_pos rfl, map_to_num_idem]
  · rw [normalize_Date canonMapping n (normalize m n t), renameStage_canon, hmat]
    cases hD : hasCol (normalize m n t) "Date" with
    | false => rw [if_neg (by simp)]
    | true =>
        rw [if_pos rfl]
        rw [hasCol_normalize_Date] at hD
        rw [normalize_Date m n t, if_pos hD, map_to_datetime_idem]

/-- C8 witness: on the scenario table, a second normalization with the
canonical mapping leaves Revenue, Units_Sold and Date unchanged, via the
main theorem. -/
theorem normalize_idempotent_witness :
    getCol (normalize canonMapping 1 (normalize bareMapping 1 zeroUnitsTable)) "Revenue" =
      getCol (normalize bareMapping 1 zeroUnitsTable) "Revenue" ∧
    getCol (normalize canonMapping 1 (normalize bareMapping 1 zeroUnitsTable)) "Units_Sold" =
      getCol (normalize bareMapping 1 zeroUnitsTable) "Units_Sold" :=
  ⟨(normalize_idempotent bareMapping 1 zeroUnitsTable).1,
   (normalize_idempotent bareMapping 1 zeroUnitsTable).2.1⟩

/-! ### Claim C5: the date-role fallback scan (modelled from the spec) -/

theorem pickMinFrac_eq_none (l : List (String × ℚ)) :
    pickMinFrac l = none ↔ l = [] := by
  cases l with
  | nil => simp [pickMinFrac]
  | cons a rest =>
      simp only [pickMinFrac]
      cases pickMinFrac rest with
      | none => simp
      | some q =>
          constructor
          · intro hc
            by_cases hle : a.2 ≤ q.2 <;> simp [hle] at hc
          · intro hc
            exact absurd hc (List.cons_ne_nil a rest)

theorem pickMinFrac_spec (l : List (String × ℚ)) (hl : l ≠ []) :
    ∃ p, pickMinFrac l = some p ∧ p ∈ l ∧ ∀ q ∈ l, p.2 ≤ q.2 := by
  induction l with
  | nil => exact absurd rfl hl
  | cons a rest ih =>
      cases hr : pickMinFrac rest with
      | none =>
          have hnil : rest = [] := (pickMinFrac_eq_none rest).mp hr
          subst hnil
          refine ⟨a, rfl, List.mem_singleton_self a, ?_⟩
          intro q hq
          rw [List.mem_singleton.mp hq]
      | some r =>
          have hne : rest ≠ [] := by
            intro hc
            subst hc
            simp [pickMinFrac] at hr
          obtain ⟨r', hr', hmem, hmin⟩ := ih hne
          rw [hr] at hr'
          injection hr' with hr'
          subst hr'
          by_cases hle : a.2 ≤ r.2
          · refine ⟨a, ?_, List.mem_cons_self a rest, ?_⟩
            · simp [pickMinFrac, hr, hle]
            · intro q hq
              rcases List.mem_cons.mp hq with h | h
              · rw [h]
              · exact le_trans hle (hmin q h)
          · refine ⟨r, ?_, List.mem_cons_of_mem a hmem, ?_⟩
            · simp [pickMinFrac, hr, hle]
            · intro q hq
              rcases List.mem_cons.mp hq with h | h
              · rw [h]
                exact le_of_lt (lt_of_not_le hle)
              · exact hmin q h

/-- C5 (modelled from the spec, the scan being absent from src/app.py):
whenever some remaining column's unparseable-date fraction is below 0.2,
the fallback scan accepts a column whose fraction is below 0.2 and is
minimal among all candidates. -/
theorem date_fallback_scan_min (cands : List (String × Col))
    (h : ∃ p ∈ cands, miss_frac p.2 < mkRat 1 5) :
    ∃ p ∈ cands, date_fallback_scan cands = some p.1 ∧
      miss_frac p.2 < mkRat 1 5 ∧
      ∀ r ∈ cands, miss_frac p.2 ≤ miss_frac r.2 := by
  obtain ⟨w, hw, hwf⟩ := h
  have hwq : (w.1, miss_frac w.2) ∈
      ((cands.map (fun p => (p.1, miss_frac p.2))).filter (fun p => p.2 < mkRat 1 5)) :=
    List.mem_filter.mpr ⟨List.mem_map.mpr ⟨w, hw, rfl⟩, by simpa using hwf⟩
  have hqne : ((cands.map (fun p => (p.1, miss_frac p.2))).filter
      (fun p => p.2 < mkRat 1 5)) ≠ [] := by
    intro hc
    rw [hc] at hwq
    exact List.not_mem_nil _ hwq
  obtain ⟨p, hp, hpm, hpmin⟩ := pickMinFrac_spec _ hqne
  have hkey : p ∈ cands.map (fun p => (p.1, miss_frac p.2)) := (List.mem_filter.mp hpm).1
  have hplt : p.2 < mkRat 1 5 := by simpa using (List.mem_filter.mp hpm).2
  obtain ⟨orig, horig, heq⟩ := List.mem_map.mp hkey
  have hsnd : p.2 = miss_frac orig.2 := by rw [← heq]
  refine ⟨orig, horig, ?_, ?_, ?_⟩
  · simp only [date_fallback_scan]
    rw [hp, ← heq]
    rfl
  · rw [← hsnd]
    exact hplt
  · intro r hr
    by_cases hrq : miss_frac r.2 < mkRat 1 5
    · have hrmem : (r.1, miss_frac r.2) ∈
          ((cands.map (fun p => (p.1, miss_frac p.2))).filter (fun p => p.2 < mkRat 1 5)) :=
        List.mem_filter.mpr ⟨List.mem_map.mpr ⟨r, hr, rfl⟩, by simpa using hrq⟩
      have := hpmin _ hrmem
      rw [hsnd] at this
      exact this
    · rw [← hsnd]
      exact le_trans (le_of_lt hplt) (not_lt.mp hrq)

/-- C5 witness: a single candidate column whose values parse as dates 85%
of the time (miss rate 3/20 = 0.15) is accepted by the scan, via the main
theorem. -/
theorem date_fallback_scan_min_witness :
    (∃ p ∈ [("Posted", scanDemoCol)], miss_frac p.2 < mkRat 1 5) ∧
    (∃ p ∈ [("Posted", scanDemoCol)],
      date_fallback_scan [("Posted", scanDemoCol)] = some p.1 ∧
      miss_frac p.2 < mkRat 1 5 ∧
      ∀ r ∈ [("Posted", scanDemoCol)], miss_frac p.2 ≤ miss_frac r.2) ∧
    miss_frac scanDemoCol = mkRat 3 20 :=
  ⟨by decide, date_fallback_scan_min [("Posted", scanDemoCol)] (by decide), by decide⟩

end ExecCopilot
